import Mathlib

/-!
Shallow embedding of the Versal accelerated pose-estimation head layer:
the quantized head kernel (`pose3d_head_kernel.cpp` and its structural
twins), the saturation helper (`pose_head_params.hpp`), the PL movers
(`feat_mover.cpp`, `output_mover.cpp`) and the host helpers
(`host_overlay.cpp`).  Channels are modelled as lists consumed from the
front; the static scratch buffer is modelled as an explicit list that is
threaded through the kernel; C `int32_t` accumulation is modelled as
integers reduced into two's-complement range after every addition.
-/

namespace Versal

/-! ## Head configuration constants (`pose_head_params.hpp`) -/

def POSE3D_IN_CH : ℕ := 1152
def WORLD_IN_CH : ℕ := 1152
def FLAG_IN_CH : ℕ := 1152

def POSE3D_OUT_CH : ℕ := 195
def WORLD_OUT_CH : ℕ := 117
def FLAG_OUT_CH : ℕ := 1

def POSE3D_OUT_CH_PAD : ℕ := POSE3D_OUT_CH + 5
def WORLD_OUT_CH_PAD : ℕ := WORLD_OUT_CH + 3
def FLAG_OUT_CH_PAD : ℕ := FLAG_OUT_CH + 7

def POSE3D_ROW_STRIDE : ℕ := 1 + POSE3D_IN_CH
def WORLD_ROW_STRIDE : ℕ := 1 + WORLD_IN_CH
def FLAG_ROW_STRIDE : ℕ := 1 + FLAG_IN_CH

def POSE3D_SHIFT : ℕ := 15
def WORLD_SHIFT : ℕ := 15
def FLAG_SHIFT : ℕ := 15

/-- A value representable as a signed 16-bit integer. -/
def isI16 (x : ℤ) : Prop := -32768 ≤ x ∧ x ≤ 32767

instance (x : ℤ) : Decidable (isI16 x) :=
  inferInstanceAs (Decidable (_ ∧ _))

/-- Reduction of an integer into signed 32-bit two's-complement range,
modelling wraparound of the C `int32_t` accumulator. -/
def toI32 (x : ℤ) : ℤ := (x + 2147483648) % 4294967296 - 2147483648

/-- `sat_q15` from `pose_head_params.hpp`: clamp to `[-32768, 32767]`. -/
def sat_q15 (x : ℤ) : ℤ :=
  if x > 32767 then 32767
  else if x < -32768 then -32768
  else x

/-- Arithmetic (sign-preserving) right shift, as `acc >>= SHIFT` on the
AIE `int32_t` accumulator. -/
def ashr (x : ℤ) (s : ℕ) : ℤ := Int.fdiv x (2 ^ s)

/-! ## Head kernel (`pose3d_head_kernel.cpp` and structural twins) -/

/-- Channel events in program order: a read from the feature window, a
read from the weight stream, or a write to the output stream. -/
inductive Ev where
  | readFeat : ℤ → Ev
  | readW : ℤ → Ev
  | writeOut : ℤ → Ev
deriving DecidableEq

def isFeatRead : Ev → Bool
  | Ev.readFeat _ => true
  | _ => false

/-- Compile-time parameters of one head. -/
structure HeadConfig where
  IN_CH : ℕ
  OUT_CH : ℕ
  OUT_CH_PAD : ℕ
  SHIFT : ℕ
deriving DecidableEq

def pose3dConfig : HeadConfig :=
  ⟨POSE3D_IN_CH, POSE3D_OUT_CH, POSE3D_OUT_CH_PAD, POSE3D_SHIFT⟩

def worldConfig : HeadConfig :=
  ⟨WORLD_IN_CH, WORLD_OUT_CH, WORLD_OUT_CH_PAD, WORLD_SHIFT⟩

def flagConfig : HeadConfig :=
  ⟨FLAG_IN_CH, FLAG_OUT_CH, FLAG_OUT_CH_PAD, FLAG_SHIFT⟩

/-- Load phase: `for i: buf[i] = window_readincr(feat_win)`.
Arguments: iterations left, current index `i`, remaining feature
channel, scratch buffer.  Returns the updated scratch buffer, the
remaining feature channel, and the event trace. -/
def loadLoop : ℕ → ℕ → List ℤ → List ℤ → List ℤ × List ℤ × List Ev
  | 0, _, featCh, buf => (buf, featCh, [])
  | n + 1, i, featCh, buf =>
    let v := featCh.headD 0
    let r := loadLoop n (i + 1) featCh.tail (buf.set i v)
    (r.1, r.2.1, Ev.readFeat v :: r.2.2)

/-- MAC loop: `for ic: acc += (int32)f[ic] * (int32)readincr(w_stream)`,
with the running sum wrapped into `int32_t` range.  Arguments: scratch
buffer, iterations left, current index `ic`, remaining weight channel,
accumulator.  Returns the final accumulator, the remaining weight
channel, and the event trace. -/
def macLoop (buf : List ℤ) : ℕ → ℕ → List ℤ → ℤ → ℤ × List ℤ × List Ev
  | 0, _, wCh, acc => (acc, wCh, [])
  | n + 1, ic, wCh, acc =>
    let w := wCh.headD 0
    let f := buf.getD ic 0
    let r := macLoop buf n (ic + 1) wCh.tail (toI32 (acc + f * w))
    (r.1, r.2.1, Ev.readW w :: r.2.2)

/-- Compute phase: for each output channel read a bias, run the MAC
loop, shift and saturate, and emit the result.  Arguments: `IN_CH`,
`SHIFT`, scratch buffer, output channels left, remaining weight channel.
Returns the emitted outputs, the remaining weight channel, and the
event trace. -/
def computeLoop (inCh shift : ℕ) (buf : List ℤ) :
    ℕ → List ℤ → List ℤ × List ℤ × List Ev
  | 0, wCh => ([], wCh, [])
  | m + 1, wCh =>
    let bias := wCh.headD 0
    let mres := macLoop buf inCh 0 wCh.tail bias
    let y := sat_q15 (ashr mres.1 shift)
    let r := computeLoop inCh shift buf m mres.2.1
    (y :: r.1, r.2.1, (Ev.readW bias :: mres.2.2) ++ Ev.writeOut y :: r.2.2)

/-- Result of one kernel invocation: emitted output channel contents,
unconsumed suffixes of the two input channels, and the event trace. -/
structure KResult where
  out : List ℤ
  featRest : List ℤ
  wRest : List ℤ
  trace : List Ev
deriving DecidableEq

/-- One invocation of the head kernel (`pose3d_head_kernel` and its
structural twins), parameterized by the head configuration and by the
initial contents of the static scratch feature buffer. -/
def head_kernel (cfg : HeadConfig) (scratch featCh wCh : List ℤ) : KResult :=
  let l := loadLoop cfg.IN_CH 0 featCh scratch
  let c := computeLoop cfg.IN_CH cfg.SHIFT l.1 cfg.OUT_CH wCh
  let padOut := List.replicate (cfg.OUT_CH_PAD - cfg.OUT_CH) (0 : ℤ)
  { out := c.1 ++ padOut
    featRest := l.2.1
    wRest := c.2.1
    trace := l.2.2 ++ c.2.2 ++ padOut.map Ev.writeOut }

/-! ## Specification-side head function (from the spec's words)

`rowAcc`, `specCompute` and `headSpec` render §4.4 of the spec: for each
output index in ascending order, consume a bias and then `IN_CH` weights
from the weight channel (row-major, bias first, weights ascending by
`ic`), form the exact integer `bias + Σ feature[ic]·w[ic]`, arithmetic
right shift by `SHIFT`, saturate, emit; then pad with literal zeros. -/

/-- Exact (unwrapped) accumulator of the row at the head of `wCh`. -/
def rowAcc (inCh : ℕ) (feats wCh : List ℤ) : ℤ :=
  wCh.headD 0 +
    ((List.range inCh).map fun ic => feats.getD ic 0 * wCh.tail.getD ic 0).sum

/-- Spec-side compute phase over exact integers. -/
def specCompute (inCh shift : ℕ) (feats : List ℤ) : ℕ → List ℤ → List ℤ
  | 0, _ => []
  | m + 1, wCh =>
    sat_q15 (ashr (rowAcc inCh feats wCh) shift) ::
      specCompute inCh shift feats m (wCh.drop (1 + inCh))

/-- Spec-side head function: computed outputs then zero padding. -/
def headSpec (cfg : HeadConfig) (feats wCh : List ℤ) : List ℤ :=
  specCompute cfg.IN_CH cfg.SHIFT feats cfg.OUT_CH wCh ++
    List.replicate (cfg.OUT_CH_PAD - cfg.OUT_CH) 0

/-- Every row accumulator consumed by the compute phase fits in
`int32_t` range (checked over the same row-major consumption order). -/
def allRowsFit (inCh : ℕ) (feats : List ℤ) : ℕ → List ℤ → Bool
  | 0, _ => true
  | m + 1, wCh =>
    (decide (-2147483648 ≤ rowAcc inCh feats wCh) &&
      decide (rowAcc inCh feats wCh < 2147483648)) &&
      allRowsFit inCh feats m (wCh.drop (1 + inCh))

/-! ## PL movers (`feat_mover.cpp`, `output_mover.cpp`)

State is the pair of the addressable buffer and the stream; each loop
iteration transforms the state exactly as the pipelined C loop body
does. -/

/-- Body of `feat_mover`'s READ_LOOP at address `a`: read `mem[a]`,
write it to the stream.  State is `(mem, stream)`. -/
def featStep (a : ℕ) (s : List ℤ × List ℤ) : List ℤ × List ℤ :=
  (s.1, s.2 ++ [s.1.getD a 0])

def featLoop : ℕ → ℕ → List ℤ × List ℤ → List ℤ × List ℤ
  | 0, _, s => s
  | n + 1, a, s => featLoop n (a + 1) (featStep a s)

/-- `feat_mover(mem, outStream, num_words, start_addr)`: burst-read
`num_words` words from `mem[start_addr + i]` into the stream.  Returns
the final `(mem, stream)` state. -/
def feat_mover (mem : List ℤ) (numWords startAddr : ℕ)
    (outStream : List ℤ) : List ℤ × List ℤ :=
  featLoop numWords startAddr (mem, outStream)

/-- Body of `output_mover`'s WRITE_LOOP at address `a`: read the stream
head, store it at `mem[a]`.  State is `(stream, mem)`. -/
def outStep (a : ℕ) (s : List ℤ × List ℤ) : List ℤ × List ℤ :=
  (s.1.tail, s.2.set a (s.1.headD 0))

def outLoop : ℕ → ℕ → List ℤ × List ℤ → List ℤ × List ℤ
  | 0, _, s => s
  | n + 1, a, s => outLoop n (a + 1) (outStep a s)

/-- `output_mover(inStream, mem, num_words, start_addr)`: drain
`num_words` words from the stream into `mem[start_addr + i]`.  Returns
the final `(stream, mem)` state. -/
def output_mover (inStream : List ℤ) (mem : List ℤ)
    (numWords startAddr : ℕ) : List ℤ × List ℤ :=
  outLoop numWords startAddr (inStream, mem)

/-! ## Host helpers (`host_overlay.cpp`) -/

/-- Host-side element counts for the output buffers
(`host_overlay.cpp`, the `*_out_elems` constants). -/
def pose3d_out_elems : ℕ := POSE3D_OUT_CH

def world_out_elems : ℕ := WORLD_OUT_CH

def flag_out_elems : ℕ := FLAG_OUT_CH

/-- `save_txt(path, buf, elems)`: one decimal integer per line, in index
order.  Modelled as the list of emitted lines. -/
def save_txt (buf : List ℤ) (elems : ℕ) : List String :=
  (List.range elems).map fun i => toString (buf.getD i 0)

/-- `load_bin(path, buf, elems)`: seek to the end to learn the file
size, fail with "File too small" when the file holds fewer than
`elems * sizeof(T)` bytes, otherwise read exactly that many bytes into
the front of the destination buffer.  Modelled at byte granularity over
the file contents; on success the destination holds the bytes read
followed by its untouched tail. -/
def load_bin (file dest : List ℤ) (elems sizeT : ℕ) : Except String (List ℤ) :=
  let fsize := file.length
  let needed := elems * sizeT
  if fsize < needed then Except.error "File too small"
  else Except.ok (file.take needed ++ dest.drop needed)

/-! ## Arithmetic helper lemmas -/

lemma toI32_lb (x : ℤ) : -2147483648 ≤ toI32 x := by
  unfold toI32; omega

lemma toI32_ub (x : ℤ) : toI32 x < 2147483648 := by
  unfold toI32; omega

lemma toI32_eq_self {x : ℤ} (h1 : -2147483648 ≤ x) (h2 : x < 2147483648) :
    toI32 x = x := by
  unfold toI32; omega

lemma toI32_idem (x : ℤ) : toI32 (toI32 x) = toI32 x :=
  toI32_eq_self (toI32_lb x) (toI32_ub x)

lemma toI32_add_left (a b : ℤ) : toI32 (toI32 a + b) = toI32 (a + b) := by
  unfold toI32; omega

lemma toI32_of_isI16 {x : ℤ} (h : isI16 x) : toI32 x = x := by
  obtain ⟨h1, h2⟩ := h
  exact toI32_eq_self (by omega) (by omega)

/-! ## List helper lemmas -/

lemma getD_zero_eq_headD (l : List ℤ) : l.getD 0 0 = l.headD 0 := by
  cases l <;> rfl

lemma getD_succ_eq_tail_getD (l : List ℤ) (k : ℕ) :
    l.getD (k + 1) 0 = l.tail.getD k 0 := by
  cases l <;> rfl

lemma take_set_self (l : List ℤ) (i : ℕ) (v : ℤ) (h : i < l.length) :
    (l.set i v).take (i + 1) = l.take i ++ [v] := by
  rw [List.set_eq_take_cons_drop v h, List.take_append_eq_append_take]
  have hlen : (l.take i).length = i := by
    simp [List.length_take]; omega
  rw [List.take_take]
  simp [hlen, Nat.min_def]

/-! ## Load-phase lemmas -/

lemma loadLoop_featRest (n : ℕ) :
    ∀ (i : ℕ) (fc buf : List ℤ), (loadLoop n i fc buf).2.1 = fc.drop n := by
  induction n with
  | zero => intro i fc buf; simp [loadLoop]
  | succ n ih =>
    intro i fc buf
    simp only [loadLoop, ih, ← List.drop_one, List.drop_drop]
    rw [Nat.add_comm]

lemma loadLoop_trace (n : ℕ) :
    ∀ (i : ℕ) (fc buf : List ℤ), n ≤ fc.length →
      (loadLoop n i fc buf).2.2 = (fc.take n).map Ev.readFeat := by
  induction n with
  | zero => intro i fc buf _; simp [loadLoop]
  | succ n ih =>
    intro i fc buf h
    cases fc with
    | nil => simp at h
    | cons x t =>
      simp only [loadLoop, List.headD_cons, List.tail_cons,
        List.take_succ_cons, List.map_cons]
      rw [ih (i + 1) t _ (by simpa using h)]

lemma loadLoop_buf (n : ℕ) :
    ∀ (i : ℕ) (fc buf : List ℤ), buf.length = i + n → n ≤ fc.length →
      (loadLoop n i fc buf).1 = buf.take i ++ fc.take n := by
  induction n with
  | zero =>
    intro i fc buf hlen _
    simp [loadLoop, List.take_of_length_le (by omega : buf.length ≤ i)]
  | succ n ih =>
    intro i fc buf hlen hfc
    cases fc with
    | nil => simp at hfc
    | cons x t =>
      simp only [loadLoop, List.headD_cons, List.tail_cons]
      rw [ih (i + 1) t (buf.set i x) (by simp [hlen]; omega) (by simpa using hfc)]
      rw [take_set_self buf i x (by omega)]
      simp [List.take_cons]

/-! ## MAC-loop lemmas -/

lemma macLoop_wRest (buf : List ℤ) (n : ℕ) :
    ∀ (ic : ℕ) (wCh : List ℤ) (acc : ℤ),
      (macLoop buf n ic wCh acc).2.1 = wCh.drop n := by
  induction n with
  | zero => intro ic wCh acc; simp [macLoop]
  | succ n ih =>
    intro ic wCh acc
    simp only [macLoop, ih, ← List.drop_one, List.drop_drop]
    rw [Nat.add_comm]

lemma macLoop_trace_noFeat (buf : List ℤ) (n : ℕ) :
    ∀ (ic : ℕ) (wCh : List ℤ) (acc : ℤ),
      ∀ e ∈ (macLoop buf n ic wCh acc).2.2, isFeatRead e = false := by
  induction n with
  | zero => intro ic wCh acc e he; simp [macLoop] at he
  | succ n ih =>
    intro ic wCh acc e he
    simp only [macLoop, List.mem_cons] at he
    rcases he with rfl | he
    · rfl
    · exact ih _ _ _ e he

lemma macLoop_acc (buf : List ℤ) (n : ℕ) :
    ∀ (ic : ℕ) (wCh : List ℤ) (acc : ℤ), toI32 acc = acc →
      (macLoop buf n ic wCh acc).1 =
        toI32 (acc + ((List.range n).map fun k =>
          buf.getD (ic + k) 0 * wCh.getD k 0).sum) := by
  induction n with
  | zero =>
    intro ic wCh acc h
    simpa [macLoop] using h.symm
  | succ n ih =>
    intro ic wCh acc h
    simp only [macLoop]
    rw [ih (ic + 1) wCh.tail _ (toI32_idem _), toI32_add_left]
    rw [List.range_succ_eq_map, List.map_cons, List.map_map, List.sum_cons]
    have h0 : wCh.getD 0 0 = wCh.headD 0 := getD_zero_eq_headD wCh
    have hmap :
        (List.range n).map ((fun k => buf.getD (ic + k) 0 * wCh.getD k 0) ∘
            Nat.succ) =
          (List.range n).map (fun k =>
            buf.getD (ic + 1 + k) 0 * wCh.tail.getD k 0) := by
      apply List.map_congr_left
      intro k _
      simp only [Function.comp]
      rw [← getD_succ_eq_tail_getD]
      congr 2
      omega
    rw [hmap, h0, add_assoc]
    simp only [Nat.add_zero]

/-! ## Compute-phase lemmas -/

lemma computeLoop_length (inCh s : ℕ) (buf : List ℤ) (m : ℕ) :
    ∀ wCh, (computeLoop inCh s buf m wCh).1.length = m := by
  induction m with
  | zero => intro wCh; simp [computeLoop]
  | succ m ih => intro wCh; simp [computeLoop, ih]

lemma computeLoop_wRest (inCh s : ℕ) (buf : List ℤ) (m : ℕ) :
    ∀ wCh, (computeLoop inCh s buf m wCh).2.1 = wCh.drop (m * (1 + inCh)) := by
  induction m with
  | zero => intro wCh; simp [computeLoop]
  | succ m ih =>
    intro wCh
    simp only [computeLoop, ih, macLoop_wRest, ← List.drop_one, List.drop_drop]
    congr 1
    ring

lemma computeLoop_trace_noFeat (inCh s : ℕ) (buf : List ℤ) (m : ℕ) :
    ∀ wCh, ∀ e ∈ (computeLoop inCh s buf m wCh).2.2, isFeatRead e = false := by
  induction m with
  | zero => intro wCh e he; simp [computeLoop] at he
  | succ m ih =>
    intro wCh e he
    simp only [computeLoop, List.cons_append, List.mem_cons,
      List.mem_append] at he
    rcases he with rfl | he | he
    · rfl
    · exact macLoop_trace_noFeat buf inCh 0 _ _ e he
    · rcases he with rfl | he
      · rfl
      · exact ih _ e he

lemma headD_isI16 {wCh : List ℤ} (hW : ∀ x ∈ wCh, isI16 x) :
    isI16 (wCh.headD 0) := by
  cases wCh with
  | nil => exact ⟨by norm_num, by norm_num⟩
  | cons x t => exact hW x (List.mem_cons_self x t)

lemma computeLoop_eq_spec (inCh s : ℕ) (buf : List ℤ) (m : ℕ) :
    ∀ wCh, (∀ x ∈ wCh, isI16 x) → allRowsFit inCh buf m wCh = true →
      (computeLoop inCh s buf m wCh).1 = specCompute inCh s buf m wCh := by
  induction m with
  | zero => intro wCh _ _; simp [computeLoop, specCompute]
  | succ m ih =>
    intro wCh hW hfit
    simp only [allRowsFit, Bool.and_eq_true, decide_eq_true_eq] at hfit
    obtain ⟨⟨hlb, hub⟩, hrest⟩ := hfit
    simp only [computeLoop, specCompute]
    have hacc : (macLoop buf inCh 0 wCh.tail (wCh.headD 0)).1 =
        rowAcc inCh buf wCh := by
      rw [macLoop_acc buf inCh 0 wCh.tail (wCh.headD 0)
        (toI32_of_isI16 (headD_isI16 hW))]
      simp only [Nat.zero_add]
      exact toI32_eq_self hlb hub
    rw [hacc, macLoop_wRest]
    have hdrop : wCh.tail.drop inCh = wCh.drop (1 + inCh) := by
      rw [← List.drop_one, List.drop_drop]
    rw [hdrop, ih (wCh.drop (1 + inCh))
      (fun x hx => hW x (List.drop_subset _ _ hx)) hrest]

/-! ## Whole-kernel lemmas -/

lemma head_kernel_out_eq_spec (cfg : HeadConfig) (scratch featCh wCh : List ℤ)
    (hs : scratch.length = cfg.IN_CH) (hf : cfg.IN_CH ≤ featCh.length)
    (hW : ∀ x ∈ wCh, isI16 x)
    (hfit : allRowsFit cfg.IN_CH (featCh.take cfg.IN_CH) cfg.OUT_CH wCh = true) :
    (head_kernel cfg scratch featCh wCh).out = headSpec cfg (featCh.take cfg.IN_CH) wCh := by
  simp only [head_kernel, headSpec]
  rw [loadLoop_buf cfg.IN_CH 0 featCh scratch (by omega) hf]
  simp only [List.take_zero, List.nil_append]
  rw [computeLoop_eq_spec cfg.IN_CH cfg.SHIFT (featCh.take cfg.IN_CH)
    cfg.OUT_CH wCh hW hfit]

/-! ## Mover lemmas -/

lemma featLoop_mem (n : ℕ) :
    ∀ (a : ℕ) (s : List ℤ × List ℤ), (featLoop n a s).1 = s.1 := by
  induction n with
  | zero => intro a s; rfl
  | succ n ih => intro a s; rw [featLoop, ih]; rfl

lemma featLoop_stream (n : ℕ) :
    ∀ (a : ℕ) (s : List ℤ × List ℤ), a + n ≤ s.1.length →
      (featLoop n a s).2 = s.2 ++ (s.1.drop a).take n := by
  induction n with
  | zero => intro a s _; simp [featLoop]
  | succ n ih =>
    intro a s h
    have ha : a < s.1.length := by omega
    rw [featLoop, ih (a + 1) (featStep a s) (by simp [featStep]; omega)]
    simp only [featStep]
    rw [List.drop_eq_getElem_cons ha, List.take_succ_cons,
      List.getD_eq_getElem s.1 0 ha]
    simp

lemma outLoop_stream (n : ℕ) :
    ∀ (a : ℕ) (s : List ℤ × List ℤ), (outLoop n a s).1 = s.1.drop n := by
  induction n with
  | zero => intro a s; simp [outLoop]
  | succ n ih =>
    intro a s
    rw [outLoop, ih]
    simp only [outStep, ← List.drop_one, List.drop_drop]
    rw [Nat.add_comm]

lemma outLoop_mem (n : ℕ) :
    ∀ (a : ℕ) (vs mem : List ℤ), n ≤ vs.length → a + n ≤ mem.length →
      (outLoop n a (vs, mem)).2 =
        mem.take a ++ vs.take n ++ mem.drop (a + n) := by
  induction n with
  | zero => intro a vs mem _ _; simp [outLoop]
  | succ n ih =>
    intro a vs mem hvs hmem
    cases vs with
    | nil => simp at hvs
    | cons v tv =>
      have ha : a < mem.length := by omega
      rw [outLoop]
      simp only [outStep, List.headD_cons, List.tail_cons]
      rw [ih (a + 1) tv (mem.set a v) (by simpa using hvs) (by simp; omega)]
      rw [take_set_self mem a v ha, List.drop_set_of_lt v mem (by omega)]
      simp only [List.take_succ_cons]
      rw [show a + 1 + n = a + (n + 1) by omega]
      simp [List.append_assoc]

/-- Frame property of `feat_mover`: the addressable buffer after the
run is the buffer before the run. -/
lemma feat_mover_mem (mem : List ℤ) (numWords startAddr : ℕ)
    (outStream : List ℤ) :
    (feat_mover mem numWords startAddr outStream).1 = mem :=
  featLoop_mem numWords startAddr (mem, outStream)

/-! ## Claim theorems -/

/-- C4: `sat_q15` returns its argument clamped to `[-32768, 32767]`:
values above the max return the max, values below the min return the
min, in-range values are returned unchanged; in particular
`sat_q15 32767 = 32767`, `sat_q15 32768 = 32767`,
`sat_q15 (-32768) = -32768`, `sat_q15 (-32769) = -32768`. -/
theorem C4_sat_q15_clamps :
    (∀ x : ℤ, (32767 < x → sat_q15 x = 32767) ∧
      (x < -32768 → sat_q15 x = -32768) ∧
      (-32768 ≤ x → x ≤ 32767 → sat_q15 x = x)) ∧
    sat_q15 32767 = 32767 ∧ sat_q15 32768 = 32767 ∧
    sat_q15 (-32768) = -32768 ∧ sat_q15 (-32769) = -32768 := by
  constructor
  · intro x
    refine ⟨fun h => ?_, fun h => ?_, fun h1 h2 => ?_⟩ <;>
      (unfold sat_q15; split_ifs <;> omega)
  · exact ⟨by decide, by decide, by decide, by decide⟩

/-- C4 witness: the clamping cases of `C4_sat_q15_clamps` at the
concrete inputs `40000`, `-40000` and `5`. -/
theorem C4_sat_q15_clamps_witness :
    sat_q15 40000 = 32767 ∧ sat_q15 (-40000) = -32768 ∧ sat_q15 5 = 5 :=
  ⟨(C4_sat_q15_clamps.1 40000).1 (by norm_num),
   (C4_sat_q15_clamps.1 (-40000)).2.1 (by norm_num),
   (C4_sat_q15_clamps.1 5).2.2 (by norm_num) (by norm_num)⟩

/-- C1 counterexample: with `IN_CH = 2`, `OUT_CH = 1`, `OUT_CH_PAD = 2`,
`SHIFT = 0`, features `[-32768, -32768]` and weight row
`[0, -32768, -32768]`, the exact accumulator is `2^31`, which overflows
the kernel's 32-bit accumulator: the kernel emits `-32768` while the
claimed formula `saturate_q15((bias + Σ feature[ic]·w[ic]) >> SHIFT)`
over exact integers gives `32767`. -/
theorem C1_counterexample :
    (head_kernel ⟨2, 1, 2, 0⟩ [0, 0] [-32768, -32768]
        [0, -32768, -32768]).out ≠
      headSpec ⟨2, 1, 2, 0⟩ [-32768, -32768] [0, -32768, -32768] := by
  decide

/-- C1 (amended): for every head configuration, feature channel holding
at least `IN_CH` int16 values and weight channel holding at least
`OUT_CH·(1+IN_CH)` int16 values, *provided every row's exact accumulator
`bias + Σ feature[ic]·w[ic]` fits in the kernel's signed 32-bit
accumulator*, the compute phase produces for each output index in
ascending order `saturate_q15((bias + Σ feature[ic]·w[ic]) >> SHIFT)`,
with bias and weights consumed from the weight channel in row-major
order, followed by the zero padding. -/
theorem C1_kernel_matches_formula (cfg : HeadConfig)
    (scratch featCh wCh : List ℤ)
    (hs : scratch.length = cfg.IN_CH)
    (hf : cfg.IN_CH ≤ featCh.length)
    (hw : cfg.OUT_CH * (1 + cfg.IN_CH) ≤ wCh.length)
    (hF : ∀ x ∈ featCh, isI16 x)
    (hW : ∀ x ∈ wCh, isI16 x)
    (hfit : allRowsFit cfg.IN_CH (featCh.take cfg.IN_CH) cfg.OUT_CH wCh = true) :
    (head_kernel cfg scratch featCh wCh).out =
      headSpec cfg (featCh.take cfg.IN_CH) wCh :=
  head_kernel_out_eq_spec cfg scratch featCh wCh hs hf hW hfit

/-- C1 witness: the known-vector scenario `IN_CH=2, OUT_CH=1,
OUT_CH_PAD=2, SHIFT=0`, features `[10, 20]`, weight row `[100, 2, 3]`:
the kernel's output channel is `[180, 0]`. -/
theorem C1_kernel_matches_formula_witness :
    (head_kernel ⟨2, 1, 2, 0⟩ [0, 0] [10, 20] [100, 2, 3]).out = [180, 0] := by
  have h := C1_kernel_matches_formula ⟨2, 1, 2, 0⟩ [0, 0] [10, 20]
    [100, 2, 3] (by decide) (by decide) (by decide) (by decide) (by decide)
    (by decide)
  rw [h]
  decide

/-- C2 counterexample: with features `[-32768, -32768]`, weight row
values `[-32768, -32768]` and bias `0` (IN_CH = 2 ≤ 1152), the
accumulator the kernel holds after the multiply-accumulate loop is
`-2^31`, not the exact mathematical value `2^31`: the 32-bit running
sum wraps before the shift-and-saturate step. -/
theorem C2_counterexample :
    (macLoop [-32768, -32768] 2 0 [-32768, -32768] 0).1 ≠
      0 + ((List.range 2).map fun k =>
        ([-32768, -32768] : List ℤ).getD k 0 *
          ([-32768, -32768] : List ℤ).getD k 0).sum := by
  decide

/-- C2 (amended): the accumulator held after the multiply-accumulate
loop equals the exact integer `bias + Σ feature[ic]·w[ic]` reduced into
signed 32-bit two's-complement range; it equals the exact value itself
whenever that value lies in `[-2^31, 2^31)` — so for such inputs
saturation is the only lossy step, but a 32-bit accumulator can wrap
for adversarial int16 inputs. -/
theorem C2_accumulator_exact (buf wCh : List ℤ) (n : ℕ) (bias : ℤ)
    (hb : isI16 bias) :
    (macLoop buf n 0 wCh bias).1 =
      toI32 (bias + ((List.range n).map fun k =>
        buf.getD k 0 * wCh.getD k 0).sum) ∧
    (-2147483648 ≤ bias + ((List.range n).map fun k =>
        buf.getD k 0 * wCh.getD k 0).sum →
      bias + ((List.range n).map fun k =>
        buf.getD k 0 * wCh.getD k 0).sum < 2147483648 →
      (macLoop buf n 0 wCh bias).1 =
        bias + ((List.range n).map fun k =>
          buf.getD k 0 * wCh.getD k 0).sum) := by
  have h := macLoop_acc buf n 0 wCh bias (toI32_of_isI16 hb)
  simp only [Nat.zero_add] at h
  exact ⟨h, fun hlb hub => by rw [h]; exact toI32_eq_self hlb hub⟩

/-- C2 witness: `C2_accumulator_exact` at bias `100`, features
`[10, 20]`, weights `[2, 3]`: the accumulator is exactly `180`. -/
theorem C2_accumulator_exact_witness :
    (macLoop [10, 20] 2 0 [2, 3] 100).1 = 180 := by
  have h := (C2_accumulator_exact [10, 20] [2, 3] 2 100 (by decide)).2
    (by decide) (by decide)
  rw [h]
  decide

/-- C3: one kernel invocation appends exactly `OUT_CH_PAD` values to
the output channel, of which the entries past `OUT_CH` are literal
zeros; it consumes exactly `OUT_CH·(1+IN_CH)` weight-channel values and
exactly `IN_CH` feature-channel values (so the padding phase reads
neither channel). -/
theorem C3_padding_invariant (cfg : HeadConfig) (scratch featCh wCh : List ℤ)
    (hpad : cfg.OUT_CH ≤ cfg.OUT_CH_PAD)
    (hf : cfg.IN_CH ≤ featCh.length)
    (hw : cfg.OUT_CH * (1 + cfg.IN_CH) ≤ wCh.length) :
    (head_kernel cfg scratch featCh wCh).out.length = cfg.OUT_CH_PAD ∧
    (head_kernel cfg scratch featCh wCh).out.drop cfg.OUT_CH =
      List.replicate (cfg.OUT_CH_PAD - cfg.OUT_CH) 0 ∧
    (head_kernel cfg scratch featCh wCh).wRest =
      wCh.drop (cfg.OUT_CH * (1 + cfg.IN_CH)) ∧
    (head_kernel cfg scratch featCh wCh).featRest = featCh.drop cfg.IN_CH := by
  refine ⟨?_, ?_, ?_, ?_⟩
  · simp [head_kernel, computeLoop_length]
    omega
  · simp only [head_kernel]
    rw [List.drop_left' (computeLoop_length cfg.IN_CH cfg.SHIFT _ cfg.OUT_CH _)]
  · simp only [head_kernel]
    rw [computeLoop_wRest]
  · simp only [head_kernel]
    rw [loadLoop_featRest]

/-- C3 witness: `C3_padding_invariant` at `IN_CH=1, OUT_CH=1,
OUT_CH_PAD=3, SHIFT=0`, feature channel `[7]`, weight channel
`[1, 2, 9]`. -/
theorem C3_padding_invariant_witness :
    (head_kernel ⟨1, 1, 3, 0⟩ [5] [7] [1, 2, 9]).out.length = 3 ∧
    (head_kernel ⟨1, 1, 3, 0⟩ [5] [7] [1, 2, 9]).out.drop 1 =
      List.replicate 2 0 ∧
    (head_kernel ⟨1, 1, 3, 0⟩ [5] [7] [1, 2, 9]).wRest = [9] ∧
    (head_kernel ⟨1, 1, 3, 0⟩ [5] [7] [1, 2, 9]).featRest = [] := by
  have h := C3_padding_invariant ⟨1, 1, 3, 0⟩ [5] [7] [1, 2, 9]
    (by decide) (by decide) (by decide)
  exact ⟨h.1, h.2.1, h.2.2.1.trans (by decide), h.2.2.2.trans (by decide)⟩

/-- C6: the memory-to-channel mover appends to the channel exactly the
`count` words `buffer[start], …, buffer[start+count-1]` in ascending
index order — the word appended at offset `i` is `buffer[start+i]` —
growing the channel by exactly `count` entries and leaving the buffer
unchanged. -/
theorem C6_feat_mover_effect (mem outStream : List ℤ) (count start : ℕ)
    (hb : start + count ≤ mem.length) :
    (feat_mover mem count start outStream).2 =
      outStream ++ (mem.drop start).take count ∧
    (∀ i, i < count →
      (feat_mover mem count start outStream).2.getD (outStream.length + i) 0 =
        mem.getD (start + i) 0) ∧
    (feat_mover mem count start outStream).2.length =
      outStream.length + count ∧
    (feat_mover mem count start outStream).1 = mem := by
  have hstream : (feat_mover mem count start outStream).2 =
      outStream ++ (mem.drop start).take count := by
    simpa [feat_mover] using featLoop_stream count start (mem, outStream) hb
  refine ⟨hstream, ?_, ?_, featLoop_mem count start (mem, outStream)⟩
  · intro i hi
    rw [hstream]
    simp only [List.getD_eq_getElem?_getD]
    rw [List.getElem?_append_right (by omega)]
    have : outStream.length + i - outStream.length = i := by omega
    rw [this, List.getElem?_take_of_lt hi, List.getElem?_drop]
  · rw [hstream]
    simp [List.length_take, List.length_drop]
    omega

/-- C6 witness: `C6_feat_mover_effect` moving two words starting at
offset 1 out of `[4, 5, 6, 7]` onto the channel `[9]`. -/
theorem C6_feat_mover_effect_witness :
    (feat_mover [4, 5, 6, 7] 2 1 [9]).2 = [9, 5, 6] ∧
    (feat_mover [4, 5, 6, 7] 2 1 [9]).2.length = 3 ∧
    (feat_mover [4, 5, 6, 7] 2 1 [9]).1 = [4, 5, 6, 7] := by
  have h := C6_feat_mover_effect [4, 5, 6, 7] [9] 2 1 (by decide)
  exact ⟨h.1.trans (by decide), h.2.2.1.trans (by decide), h.2.2.2⟩

/-- C5: moving `buffer[start .. start+count)` onto a fresh channel with
the memory-to-channel mover and draining that channel back with the
channel-to-memory mover at the same `(start, count)` reproduces the
original slice exactly, element for element in order. -/
theorem C5_mover_roundtrip (mem dest : List ℤ) (count start : ℕ)
    (hb : start + count ≤ mem.length) (hd : dest.length = mem.length) :
    (((output_mover (feat_mover mem count start []).2 dest count start).2.drop
        start).take count) = (mem.drop start).take count := by
  have hch : (feat_mover mem count start []).2 = (mem.drop start).take count := by
    have := featLoop_stream count start (mem, []) hb
    simpa using this
  have hlen : ((mem.drop start).take count).length = count := by
    simp [List.length_take, List.length_drop]
    omega
  rw [hch]
  show ((outLoop count start ((mem.drop start).take count, dest)).2.drop
      start).take count = (mem.drop start).take count
  rw [outLoop_mem count start _ dest (by omega) (by omega)]
  rw [List.append_assoc, List.drop_left' (by simp [List.length_take]; omega)]
  rw [List.take_left' ?hl]
  · rw [List.take_of_length_le (by omega)]
  case hl =>
    rw [List.take_of_length_le (by omega)]
    exact hlen

/-- C5 witness: `C5_mover_roundtrip` on buffer `[1, 2, 3, 4]`,
destination `[0, 0, 0, 0]`, `start = 1`, `count = 2`. -/
theorem C5_mover_roundtrip_witness :
    ((((output_mover (feat_mover [1, 2, 3, 4] 2 1 []).2 [0, 0, 0, 0] 2
        1).2.drop 1).take 2)) = (([1, 2, 3, 4] : List ℤ).drop 1).take 2 :=
  C5_mover_roundtrip [1, 2, 3, 4] [0, 0, 0, 0] 2 1 (by decide) (by decide)

/-- C7 counterexample: the host persists `pose3d_out_elems =
POSE3D_OUT_CH = 195` lines for the pose head, not `POSE3D_OUT_CH_PAD =
200`: the claim's line count fails on the code. -/
theorem C7_counterexample :
    (save_txt (List.replicate 200 (7 : ℤ)) pose3d_out_elems).length = 195 ∧
    POSE3D_OUT_CH_PAD = 200 ∧ (195 : ℕ) ≠ 200 := by
  refine ⟨?_, by decide, by decide⟩
  simp only [save_txt, List.length_map, List.length_range]
  rfl

/-- C7 (amended): for every head, the persisted output artifact
contains `OUT_CH` (not `OUT_CH_PAD`) int16 values written as one
decimal integer per line in index order — only the computed entries
(195 lines for the pose head, 117 for the world head, 1 for the flag
head); the zero padding entries are not persisted. -/
theorem C7_artifact_lines (buf : List ℤ) :
    (save_txt buf pose3d_out_elems).length = POSE3D_OUT_CH ∧
    (save_txt buf world_out_elems).length = WORLD_OUT_CH ∧
    (save_txt buf flag_out_elems).length = FLAG_OUT_CH ∧
    ∀ i, i < pose3d_out_elems →
      (save_txt buf pose3d_out_elems).getD i "" = toString (buf.getD i 0) := by
  refine ⟨by simp [save_txt, pose3d_out_elems],
    by simp [save_txt, world_out_elems],
    by simp [save_txt, flag_out_elems], ?_⟩
  intro i hi
  simp only [save_txt, List.getD_eq_getElem?_getD, List.getElem?_map,
    List.getElem?_range hi]
  rfl

/-- C7 witness: `C7_artifact_lines` on the all-sevens buffer; line 3 of
the pose-head artifact is the decimal rendering of entry 3. -/
theorem C7_artifact_lines_witness :
    (save_txt (List.replicate 200 (7 : ℤ))
        pose3d_out_elems).getD 3 "" =
      toString ((List.replicate 200 (7 : ℤ)).getD 3 0) :=
  (C7_artifact_lines (List.replicate 200 (7 : ℤ))).2.2.2 3 (by decide)

/-- C8: when the input file holds fewer bytes than
`elems * sizeof(T)`, `load_bin` fails with the "File too small" error
and the destination buffer is untouched; when the file is at least that
large it reads exactly the needed bytes into the front of the
destination. -/
theorem C8_load_bin_truncation (file dest : List ℤ) (elems sizeT : ℕ) :
    (file.length < elems * sizeT →
      load_bin file dest elems sizeT = Except.error "File too small") ∧
    (elems * sizeT ≤ file.length →
      load_bin file dest elems sizeT =
        Except.ok (file.take (elems * sizeT) ++ dest.drop (elems * sizeT)) ∧
      (file.take (elems * sizeT)).length = elems * sizeT) := by
  constructor
  · intro h
    simp [load_bin, h]
  · intro h
    constructor
    · simp [load_bin, Nat.not_lt.mpr h]
    · simp [List.length_take]
      omega

/-- C8 witness: `C8_load_bin_truncation` on a 2-byte file asked for 3
bytes (error) and a 3-byte file asked for 3 bytes (exact read). -/
theorem C8_load_bin_truncation_witness :
    load_bin [1, 2] [9, 9, 9] 3 1 = Except.error "File too small" ∧
    load_bin [1, 2, 3] [9, 9, 9, 9] 3 1 = Except.ok [1, 2, 3, 9] := by
  refine ⟨(C8_load_bin_truncation [1, 2] [9, 9, 9] 3 1).1 (by decide), ?_⟩
  have h := ((C8_load_bin_truncation [1, 2, 3] [9, 9, 9, 9] 3 1).2
    (by decide)).1
  rw [h]
  rfl

/-- C9: in every kernel invocation the first `IN_CH` channel events of
the trace are exactly the `IN_CH` feature-channel reads, in channel
order, and no feature-channel read occurs later — so the load phase
fully drains the configured feature-vector length before the compute
phase performs its first weight-channel read. -/
theorem C9_load_precedes_weights (cfg : HeadConfig)
    (scratch featCh wCh : List ℤ) (hf : cfg.IN_CH ≤ featCh.length) :
    (head_kernel cfg scratch featCh wCh).trace.take cfg.IN_CH =
      (featCh.take cfg.IN_CH).map Ev.readFeat ∧
    ∀ e ∈ (head_kernel cfg scratch featCh wCh).trace.drop cfg.IN_CH,
      isFeatRead e = false := by
  have hlt := loadLoop_trace cfg.IN_CH 0 featCh scratch hf
  have hlen : (loadLoop cfg.IN_CH 0 featCh scratch).2.2.length = cfg.IN_CH := by
    rw [hlt, List.length_map, List.length_take]
    omega
  constructor
  · simp only [head_kernel]
    rw [List.take_append_of_le_length
        (by rw [List.length_append, hlen]; omega),
      List.take_append_of_le_length (by rw [hlen]),
      List.take_of_length_le (by rw [hlen]), hlt]
  · simp only [head_kernel]
    rw [List.drop_append_eq_append_drop, List.drop_append_eq_append_drop,
      List.drop_eq_nil_of_le (by rw [hlen])]
    intro e he
    simp only [List.nil_append, List.mem_append] at he
    rcases he with he | he
    · exact computeLoop_trace_noFeat cfg.IN_CH cfg.SHIFT _ cfg.OUT_CH _ e
        (List.mem_of_mem_drop he)
    · have := List.mem_of_mem_drop he
      simp only [List.mem_map] at this
      obtain ⟨v, _, rfl⟩ := this
      rfl

/-- C9 witness: `C9_load_precedes_weights` at `IN_CH=2, OUT_CH=1,
OUT_CH_PAD=2, SHIFT=0` with feature channel `[10, 20]` and weight
channel `[100, 2, 3]`. -/
theorem C9_load_precedes_weights_witness :
    (head_kernel ⟨2, 1, 2, 0⟩ [0, 0] [10, 20] [100, 2, 3]).trace.take 2 =
      (([10, 20] : List ℤ).take 2).map Ev.readFeat ∧
    ∀ e ∈ (head_kernel ⟨2, 1, 2, 0⟩ [0, 0] [10, 20] [100, 2, 3]).trace.drop 2,
      isFeatRead e = false :=
  C9_load_precedes_weights ⟨2, 1, 2, 0⟩ [0, 0] [10, 20] [100, 2, 3] (by decide)

/-- C10: two invocations with equal feature-channel contents, equal
weight-channel contents and the same configuration emit equal output
sequences regardless of the initial contents of the static feature
scratch buffer: the load phase overwrites all `IN_CH` scratch entries
before any is read. -/
theorem C10_scratch_independence (cfg : HeadConfig)
    (s1 s2 featCh wCh : List ℤ)
    (h1 : s1.length = cfg.IN_CH) (h2 : s2.length = cfg.IN_CH)
    (hf : cfg.IN_CH ≤ featCh.length) :
    (head_kernel cfg s1 featCh wCh).out =
      (head_kernel cfg s2 featCh wCh).out := by
  simp only [head_kernel]
  rw [loadLoop_buf cfg.IN_CH 0 featCh s1 (by omega) hf,
    loadLoop_buf cfg.IN_CH 0 featCh s2 (by omega) hf]
  simp only [List.take_zero, List.nil_append]

/-- C10 witness: `C10_scratch_independence` with scratch buffers
`[5, 6]` and `[-3, 44]` on the known-vector inputs. -/
theorem C10_scratch_independence_witness :
    (head_kernel ⟨2, 1, 2, 0⟩ [5, 6] [10, 20] [100, 2, 3]).out =
      (head_kernel ⟨2, 1, 2, 0⟩ [-3, 44] [10, 20] [100, 2, 3]).out :=
  C10_scratch_independence ⟨2, 1, 2, 0⟩ [5, 6] [-3, 44] [10, 20]
    [100, 2, 3] (by decide) (by decide) (by decide)

end Versal
